import Mathlib

/-!
# Verification of the ExcaClean / ClaudeSync notes filter

Shallow embedding of `src/excaclean.py` and
`src/src/claudesync/notes_processor.py`.

The core text transformation is
`re.sub(r'#\s*Excalidraw Data[\s\S]*$', '', text)` (identical in both
files).  Since `[\s\S]*` is greedy and `$` is not in MULTILINE mode, the
single match runs from the leftmost position where `#`, then a maximal run
of whitespace, then the literal `Excalidraw Data` occurs, to the end of the
string.  We embed that as a linear scan over the character list.

The tree walkers (`process_directory`, `concatenate_files`) are embedded
over an abstract snapshot of the walk: the list of files in traversal
order, each carrying its relative directory segments, its filename, and
either its decoded UTF-8 content or `none` when reading/decoding raised an
exception (the `except` branch of `process_file`).  Destination writes may
fail; `process_directory` models the uncaught exception raised by
`open(dest_file, 'w')` with an `aborted` flag together with the partial
state accumulated before the exception.
-/

/-- Python's `\s` character class (`re` module, Unicode string patterns):
ASCII whitespace, the information separators, and Unicode space
characters. -/
def isPySpace (c : Char) : Bool :=
  (0x09 ≤ c.toNat && c.toNat ≤ 0x0d) ||
  (0x1c ≤ c.toNat && c.toNat ≤ 0x1f) ||
  c.toNat == 0x20 || c.toNat == 0x85 || c.toNat == 0xa0 ||
  c.toNat == 0x1680 ||
  (0x2000 ≤ c.toNat && c.toNat ≤ 0x200a) ||
  c.toNat == 0x2028 || c.toNat == 0x2029 ||
  c.toNat == 0x202f || c.toNat == 0x205f || c.toNat == 0x3000

/-- Drop the maximal leading run of `\s` characters: the effect of the
greedy `\s*` when the next pattern atom is a non-whitespace literal. -/
def dropWs : List Char → List Char
  | [] => []
  | c :: cs => if isPySpace c then dropWs cs else c :: cs

/-- The literal text `Excalidraw Data` of the pattern. -/
def excalLiteral : List Char := "Excalidraw Data".toList

/-- `excalHere cs` holds iff the regex `#\s*Excalidraw Data` matches at the
first position of `cs`: a `#`, then whitespace, then the literal. -/
def excalHere : List Char → Bool
  | [] => false
  | c :: rest => c == '#' && excalLiteral.isPrefixOf (dropWs rest)

/-- The substitution `re.sub(r'#\s*Excalidraw Data[\s\S]*$', '', text)` on
the character list: keep characters until the leftmost match position,
then drop the whole remaining suffix (the greedy `[\s\S]*$` extends the
match to the end of the string). -/
def filterAux : List Char → List Char
  | [] => []
  | c :: cs => if excalHere (c :: cs) then [] else c :: filterAux cs

/-- `filter_excalidraw_data` of `excaclean.py` line 18 and
`notes_processor.py` line 7: remove the Excalidraw data section from the
text. -/
def filter_excalidraw_data (text : String) : String :=
  String.mk (filterAux text.data)

/-- `noOccur cs` holds iff no suffix of `cs` begins with a regex match,
i.e. `re.sub` leaves the text unchanged. -/
def noOccur : List Char → Bool
  | [] => true
  | c :: cs => !excalHere (c :: cs) && noOccur cs

/-- Split a text into its lines at `\n` (spec-side helper for talking
about "lines" of the document). -/
def splitLines : List Char → List (List Char)
  | [] => [[]]
  | c :: cs =>
    if c = '\n' then [] :: splitLines cs
    else
      match splitLines cs with
      | [] => [[c]]
      | l :: ls => (c :: l) :: ls

/-- A line matching the Excalidraw heading pattern as the specification
words it: after stripping leading whitespace the line starts with `#`
followed by optional whitespace and the literal `Excalidraw Data`.
(Spec-side definition, used to compare the spec's line-anchored reading
with the unanchored regex of the source.) -/
def lineMatchesHeading (l : List Char) : Bool :=
  match dropWs l with
  | [] => false
  | c :: rest => c == '#' && excalLiteral.isPrefixOf (dropWs rest)

/-! ## Tree walker (`excaclean.py`) -/

/-- One file met during the `os.walk` traversal: the relative directory
(as path segments from the source root), the filename, and either the
decoded UTF-8 content or `none` when `open`/`read` raised (I/O error or
`UnicodeDecodeError`). -/
structure SrcFile where
  relDir : List String
  name : String
  content : Option String
deriving DecidableEq

/-- The rendering of `rel_path / filename`: `pathlib` joins the segments
with `/` and collapses the leading `.` of the root directory. -/
def relRender (f : SrcFile) : String :=
  String.intercalate "/" (f.relDir ++ [f.name])

/-- Python's `str.endswith`: the argument is a suffix of the string. -/
def endswith (s suffix : String) : Bool :=
  suffix.data.isSuffixOf s.data

/-- `process_file` of `excaclean.py` line 24.  Reading happens first (a
failure is the caught exception, giving `(None, False)`); a file whose
name does not end in `.md` is passed through with `has_excalidraw =
False`; a `.md` file is filtered, and `has_excalidraw` is whether the
filtered content differs from the original. -/
def process_file (name : String) (content : Option String) : Option String × Bool :=
  match content with
  | none => (none, false)
  | some c =>
    if endswith name ".md" then
      let filtered := filter_excalidraw_data c
      (some filtered, decide (filtered ≠ c))
    else
      (some c, false)

/-- Result of `process_directory` (mirror modes `duplicate` and `noxk`).
`outputs` is the sequence of destination writes `((relDir, name),
content)` under the destination root, in write order; `events` the
progress descriptions passed to `progress.update`; `aborted` models the
uncaught exception of a failed `open(dest_file, 'w')`, which stops the
whole loop (lines 63-64 are not inside any `try`). -/
structure DirResult where
  outputs : List ((List String × String) × String)
  processed_files : Nat
  excalidraw_found : Nat
  events : List String
  aborted : Bool
deriving DecidableEq

/-- The loop body of `process_directory` lines 57-68, with the loop state
(written files, counters, progress events) passed explicitly.  `writeOk`
says whether opening the mirrored destination path for writing succeeds;
on a failure the exception propagates, ending the run with the state
accumulated so far. -/
def dirLoop (writeOk : List String × String → Bool) :
    List SrcFile → List ((List String × String) × String) → Nat → Nat → List String → DirResult
  | [], outs, processed, found, events => ⟨outs, processed, found, events, false⟩
  | f :: rest, outs, processed, found, events =>
    match process_file f.name f.content with
    | (some fc, has) =>
      if writeOk (f.relDir, f.name) then
        dirLoop writeOk rest (outs ++ [((f.relDir, f.name), fc)]) (processed + 1)
          (found + (if has then 1 else 0)) (events ++ ["Processing: " ++ relRender f])
      else
        ⟨outs, processed, found, events, true⟩
    | (none, _) => dirLoop writeOk rest outs processed found events

/-- `process_directory` of `excaclean.py` line 41, over the walk snapshot
`files` (all files under the source root in traversal order). -/
def process_directory (files : List SrcFile) (writeOk : List String × String → Bool) :
    DirResult :=
  dirLoop writeOk files [] 0 0 []

/-- Result of `concatenate_files` (concat mode): the joined text, the two
counters, and the progress events. -/
structure ConcatResult where
  text : String
  processed_files : Nat
  excalidraw_found : Nat
  events : List String
deriving DecidableEq

/-- The f-string `f"\n\n# File: \x7bfile_rel_path\x7d\n\n\x7bfiltered_content\x7d"`
appended for each successfully processed file (line 88). -/
def fileEntry (f : SrcFile) (content : String) : String :=
  "\n\n# File: " ++ relRender f ++ "\n\n" ++ content

/-- The loop of `concatenate_files` lines 79-92 with explicit state:
the `result` list of appended entries, the counters, and the progress
events. -/
def concatLoop :
    List SrcFile → List String → Nat → Nat → List String →
    List String × Nat × Nat × List String
  | [], result, processed, found, events => (result, processed, found, events)
  | f :: rest, result, processed, found, events =>
    match process_file f.name f.content with
    | (some fc, has) =>
      concatLoop rest (result ++ [fileEntry f fc]) (processed + 1)
        (found + (if has then 1 else 0)) (events ++ ["Processing: " ++ relRender f])
    | (none, _) => concatLoop rest result processed found events

/-- `concatenate_files` of `excaclean.py` line 72: run the loop from the
empty state and return `"\n".join(result)` with the counters. -/
def concatenate_files (files : List SrcFile) : ConcatResult :=
  let r := concatLoop files [] 0 0 []
  ⟨String.intercalate "\n" r.1, r.2.1, r.2.2.1, r.2.2.2⟩

/-- `main` line 123: the progress-bar total is the number of files under
the source root, counted up front with `rglob` (readable or not). -/
def total_files (files : List SrcFile) : Nat := files.length

/-! ## `notes_processor.py` -/

/-- `process_note_file` of `notes_processor.py` line 28, acting on the
state of the file at the given path: `none` when the path does not exist,
`some c` when it holds text `c`.  Returns the new file state and the
boolean result: a nonexistent path returns `False`; otherwise the content
is filtered and written back only when it changed. -/
def process_note_file (s : Option String) : Option String × Bool :=
  match s with
  | none => (none, false)
  | some c =>
    let filtered := filter_excalidraw_data c
    if filtered ≠ c then (some filtered, true) else (some c, false)

/-! ## Lemmas about the filter -/

lemma excalLiteral_eq : excalLiteral = 'E' :: "xcalidraw Data".toList := by decide

lemma isPySpace_hash : isPySpace '#' = false := by decide

lemma dropWs_eq_nil_iff (l : List Char) : dropWs l = [] ↔ l.all isPySpace = true := by
  induction l with
  | nil => simp [dropWs]
  | cons c cs ih =>
    by_cases hc : isPySpace c = true
    · simp [dropWs, hc, ih]
    · simp [dropWs, hc]

/-- Extending a list on the right can only shrink the dropped-whitespace
tail: `dropWs` of a prefix is empty or a prefix of `dropWs` of the list. -/
lemma dropWs_pre : ∀ {t s : List Char}, t <+: s → dropWs t = [] ∨ dropWs t <+: dropWs s
  | [], _, _ => Or.inl rfl
  | c :: t', s, h => by
    obtain ⟨r, rfl⟩ := h
    by_cases hc : isPySpace c = true
    · simpa [dropWs, hc] using dropWs_pre (t := t') ⟨r, by simp⟩
    · exact Or.inr (by simp [dropWs, hc])

/-- A regex match at the head of a prefix is a match at the head of the
full list: truncating the text never creates a match. -/
lemma excalHere_mono : ∀ {t s : List Char}, t <+: s → excalHere t = true → excalHere s = true := by
  intro t s h ht
  match t, ht with
  | c :: rest, ht =>
    obtain ⟨r, rfl⟩ := h
    rw [excalHere] at ht
    obtain ⟨hc, hp⟩ := Bool.and_eq_true_iff.mp ht
    rw [List.cons_append, excalHere, hc, Bool.true_and]
    rw [List.isPrefixOf_iff_prefix] at hp ⊢
    rcases dropWs_pre (List.prefix_append rest r) with hnil | hpre
    · rw [hnil] at hp
      have : excalLiteral = [] := List.prefix_nil.mp hp
      rw [excalLiteral_eq] at this
      exact absurd this (by simp)
    · exact hp.trans hpre

/-- `filterAux` returns a prefix of its input. -/
lemma filterAux_pre : ∀ l : List Char, filterAux l <+: l
  | [] => List.nil_prefix
  | c :: cs => by
    rw [filterAux]
    by_cases h : excalHere (c :: cs) = true
    · simp [h]
    · simpa [h] using (filterAux_pre cs)

/-- The output of `filterAux` contains no match anywhere. -/
lemma noOccur_filterAux : ∀ l : List Char, noOccur (filterAux l) = true
  | [] => rfl
  | c :: cs => by
    rw [filterAux]
    by_cases h : excalHere (c :: cs) = true
    · simp [h, noOccur]
    · rw [if_neg h, noOccur, Bool.and_eq_true_iff]
      refine ⟨?_, noOccur_filterAux cs⟩
      have hpre : c :: filterAux cs <+: c :: cs := by
        simpa using filterAux_pre cs
      by_cases h2 : excalHere (c :: filterAux cs) = true
      · exact absurd (excalHere_mono hpre h2) h
      · simpa using h2

/-- On match-free text, `re.sub` is the identity. -/
lemma filterAux_of_noOccur : ∀ l : List Char, noOccur l = true → filterAux l = l
  | [], _ => rfl
  | c :: cs, h => by
    rw [noOccur, Bool.and_eq_true_iff] at h
    have h1 : excalHere (c :: cs) = false := by simpa using h.1
    rw [filterAux, if_neg (by simp [h1]), filterAux_of_noOccur cs h.2]

/-- If the leftmost match starts at position `j`, `filterAux` keeps
exactly the first `j` characters. -/
lemma filterAux_cut :
    ∀ (j : Nat) (l : List Char), excalHere (l.drop j) = true →
      (∀ i, i < j → excalHere (l.drop i) = false) → filterAux l = l.take j
  | 0, l, hj, _ => by
    match l with
    | [] => simp [excalHere] at hj
    | c :: cs => rw [List.drop_zero] at hj; simp [filterAux, hj]
  | j + 1, l, hj, hlt => by
    match l with
    | [] => simp [excalHere] at hj
    | c :: cs =>
      have h0 : excalHere (c :: cs) = false := by
        simpa using hlt 0 (Nat.succ_pos j)
      rw [filterAux, if_neg (by simp [h0]), List.take_succ_cons]
      have ih := filterAux_cut j cs (by simpa using hj)
        (fun i hi => by simpa using hlt (i + 1) (Nat.succ_lt_succ hi))
      rw [ih]

/-! ## Lemmas about appending a heading to match-free text -/

/-- `dropWs` across an append whose right part starts with a
non-whitespace character. -/
lemma dropWs_append (xs ys : List Char) (c : Char) (hc : isPySpace c = false) :
    dropWs (xs ++ c :: ys) =
      if xs.all isPySpace then c :: ys else dropWs xs ++ c :: ys := by
  induction xs with
  | nil => simp [dropWs, hc]
  | cons a t ih =>
    by_cases ha : isPySpace a = true
    · rw [List.cons_append, dropWs, if_pos ha, ih, dropWs, if_pos ha]
      simp [ha]
    · rw [List.cons_append, dropWs, if_neg ha, List.all_cons]
      simp [ha, dropWs]

/-- The literal contains no `#`, so a prefix of `xs ++ '#' :: ys` that is
the literal already lies inside `xs`. -/
lemma lit_pre_of_append :
    ∀ (lit xs ys : List Char), '#' ∉ lit → lit <+: (xs ++ '#' :: ys) → lit <+: xs
  | [], _, _, _, _ => List.nil_prefix
  | a :: lit', [], ys, hmem, hp => by
    rw [List.nil_append, List.cons_prefix_cons] at hp
    exact absurd (hp.1 ▸ List.mem_cons_self a lit') hmem
  | a :: lit', b :: xs', ys, hmem, hp => by
    rw [List.cons_append, List.cons_prefix_cons] at hp
    rw [hp.1, List.cons_prefix_cons]
    exact ⟨rfl, lit_pre_of_append lit' xs' ys (fun h => hmem (List.mem_cons_of_mem a h)) hp.2⟩

lemma hash_not_mem_lit : '#' ∉ excalLiteral := by decide

/-- A match that starts inside `c :: xs` and reaches into an appended
tail beginning with `#` is impossible: the match must already be complete
inside `c :: xs`. -/
lemma excalHere_append (c : Char) (xs ys : List Char)
    (h : excalHere (c :: (xs ++ '#' :: ys)) = true) : excalHere (c :: xs) = true := by
  rw [excalHere, Bool.and_eq_true_iff] at h
  obtain ⟨hc, hp⟩ := h
  rw [List.isPrefixOf_iff_prefix] at hp
  rw [dropWs_append xs ys '#' isPySpace_hash] at hp
  by_cases hall : xs.all isPySpace = true
  · rw [if_pos hall] at hp
    rw [excalLiteral_eq, List.cons_prefix_cons] at hp
    exact absurd hp.1 (by decide)
  · rw [if_neg hall] at hp
    have := lit_pre_of_append excalLiteral (dropWs xs) ys hash_not_mem_lit hp
    rw [excalHere, hc, Bool.true_and, List.isPrefixOf_iff_prefix]
    exact this

/-- Appending `"# Excalidraw Data"` and arbitrary trailing characters to
match-free text: the leftmost match is exactly at the seam, and the
filter recovers the original text. -/
lemma filterAux_append_sep :
    ∀ (l anyL : List Char), noOccur l = true →
      filterAux (l ++ "# Excalidraw Data".toList ++ anyL) = l
  | [], anyL, _ => by
    have hsep : "# Excalidraw Data".toList = '#' :: ' ' :: excalLiteral := by decide
    rw [List.nil_append, hsep]
    have hws : dropWs ((' ' :: excalLiteral) ++ anyL) = excalLiteral ++ anyL := by
      rw [List.cons_append, dropWs, if_pos (by decide), excalLiteral_eq, List.cons_append,
        dropWs, if_neg (by decide), ← List.cons_append, ← excalLiteral_eq]
    have hh : excalHere (('#' :: ' ' :: excalLiteral) ++ anyL) = true := by
      rw [List.cons_append, List.cons_append, excalHere]
      rw [← List.cons_append, hws, Bool.and_eq_true_iff, List.isPrefixOf_iff_prefix]
      exact ⟨rfl, List.prefix_append excalLiteral anyL⟩
    rw [filterAux.eq_def]
    split
    · rfl
    · rename_i c cs heq
      rw [← heq, if_pos hh]
  | c :: cs, anyL, h => by
    rw [noOccur, Bool.and_eq_true_iff] at h
    have h1 : excalHere (c :: cs) = false := by simpa using h.1
    have hZ : "# Excalidraw Data".toList ++ anyL =
        '#' :: (" Excalidraw Data".toList ++ anyL) := rfl
    have hno : excalHere (c :: (cs ++ ("# Excalidraw Data".toList ++ anyL))) = false := by
      by_cases hx : excalHere (c :: (cs ++ ("# Excalidraw Data".toList ++ anyL))) = true
      · rw [hZ] at hx
        rw [excalHere_append c cs _ hx] at h1
        exact absurd h1 (by simp)
      · simpa using hx
    show filterAux ((c :: cs) ++ "# Excalidraw Data".toList ++ anyL) = c :: cs
    rw [List.append_assoc, List.cons_append, filterAux, if_neg (by rw [hno]; simp)]
    rw [← List.append_assoc, filterAux_append_sep cs anyL h.2]

/-- `noOccur` says exactly that no position of the text starts a match. -/
lemma noOccur_iff : ∀ l : List Char, noOccur l = true ↔ ∀ i, excalHere (l.drop i) = false
  | [] => by
    constructor
    · intro _ i
      rw [List.drop_nil]
      rfl
    · intro _
      rfl
  | c :: cs => by
    rw [noOccur, Bool.and_eq_true_iff]
    constructor
    · rintro ⟨h1, h2⟩ i
      match i with
      | 0 => simpa using h1
      | i + 1 => exact (noOccur_iff cs).mp h2 i
    · intro h
      exact ⟨by simpa using h 0, (noOccur_iff cs).mpr (fun i => h (i + 1))⟩

/-! ## Lemmas about the tree walkers -/

/-- A file whose read fails contributes nothing to a mirror run: the loop
behaves as if the file were absent. -/
lemma dirLoop_skip (wOk : List String × String → Bool) (f : SrcFile)
    (hf : f.content = none) :
    ∀ (l₁ l₂ : List SrcFile) (outs : List ((List String × String) × String))
      (p fd : Nat) (evs : List String),
      dirLoop wOk (l₁ ++ f :: l₂) outs p fd evs = dirLoop wOk (l₁ ++ l₂) outs p fd evs
  | [], l₂, outs, p, fd, evs => by
    have hpf : process_file f.name f.content = (none, false) := by rw [hf]; rfl
    simp only [List.nil_append, dirLoop, hpf]
  | g :: l₁, l₂, outs, p, fd, evs => by
    rcases hpf : process_file g.name g.content with ⟨_ | fc, ch⟩
    · simp only [List.cons_append, dirLoop, hpf]
      exact dirLoop_skip wOk f hf l₁ l₂ outs p fd evs
    · simp only [List.cons_append, dirLoop, hpf]
      by_cases hw : wOk (g.relDir, g.name) = true
      · rw [if_pos hw, if_pos hw]
        exact dirLoop_skip wOk f hf l₁ l₂ _ _ _ _
      · rw [if_neg hw, if_neg hw]

/-- A file whose read fails contributes nothing to a concat run either. -/
lemma concatLoop_skip (f : SrcFile) (hf : f.content = none) :
    ∀ (l₁ l₂ : List SrcFile) (result : List String) (p fd : Nat) (evs : List String),
      concatLoop (l₁ ++ f :: l₂) result p fd evs = concatLoop (l₁ ++ l₂) result p fd evs
  | [], l₂, result, p, fd, evs => by
    have hpf : process_file f.name f.content = (none, false) := by rw [hf]; rfl
    simp only [List.nil_append, concatLoop, hpf]
  | g :: l₁, l₂, result, p, fd, evs => by
    rcases hpf : process_file g.name g.content with ⟨_ | fc, ch⟩
    · simp only [List.cons_append, concatLoop, hpf]
      exact concatLoop_skip f hf l₁ l₂ result p fd evs
    · simp only [List.cons_append, concatLoop, hpf]
      exact concatLoop_skip f hf l₁ l₂ _ _ _ _

/-- Destination writes only accumulate: anything already written stays in
the final output list. -/
lemma dirLoop_outs_mono (wOk : List String × String → Bool) :
    ∀ (l : List SrcFile) (outs : List ((List String × String) × String))
      (p fd : Nat) (evs : List String) (x : (List String × String) × String),
      x ∈ outs → x ∈ (dirLoop wOk l outs p fd evs).outputs
  | [], outs, p, fd, evs, x, hx => hx
  | g :: l, outs, p, fd, evs, x, hx => by
    rcases hpf : process_file g.name g.content with ⟨_ | fc, ch⟩
    · simp only [dirLoop, hpf]
      exact dirLoop_outs_mono wOk l outs p fd evs x hx
    · simp only [dirLoop, hpf]
      by_cases hw : wOk (g.relDir, g.name) = true
      · rw [if_pos hw]
        exact dirLoop_outs_mono wOk l _ _ _ _ x (List.mem_append_left _ hx)
      · rw [if_neg hw]
        exact hx

/-- In a run that never hit a write failure, every successfully read
non-`.md` file is written through unchanged at its mirrored path. -/
lemma dirLoop_mem_non_md (wOk : List String × String → Bool) :
    ∀ (l : List SrcFile) (outs : List ((List String × String) × String))
      (p fd : Nat) (evs : List String) (f : SrcFile) (c : String),
      (dirLoop wOk l outs p fd evs).aborted = false →
      f ∈ l → endswith f.name ".md" = false → f.content = some c →
      ((f.relDir, f.name), c) ∈ (dirLoop wOk l outs p fd evs).outputs
  | [], _, _, _, _, _, _, _, hmem, _, _ => absurd hmem (List.not_mem_nil _)
  | g :: l, outs, p, fd, evs, f, c, hab, hmem, hmd, hc => by
    rcases List.mem_cons.mp hmem with heq | hmem'
    · subst heq
      have hpf : process_file f.name f.content = (some c, false) := by
        rw [hc, process_file, if_neg (by simp [hmd])]
      simp only [dirLoop, hpf] at hab ⊢
      by_cases hw : wOk (f.relDir, f.name) = true
      · rw [if_pos hw]
        exact dirLoop_outs_mono wOk l _ _ _ _ _
          (List.mem_append_right _ (List.mem_singleton.mpr rfl))
      · rw [if_neg hw] at hab
        exact absurd hab (by simp)
    · rcases hpf : process_file g.name g.content with ⟨_ | fc, ch⟩
      · simp only [dirLoop, hpf] at hab ⊢
        exact dirLoop_mem_non_md wOk l outs p fd evs f c hab hmem' hmd hc
      · simp only [dirLoop, hpf] at hab ⊢
        by_cases hw : wOk (g.relDir, g.name) = true
        · rw [if_pos hw] at hab ⊢
          exact dirLoop_mem_non_md wOk l _ _ _ _ f c hab hmem' hmd hc
        · rw [if_neg hw] at hab
          exact absurd hab (by simp)

/-- The found counter never outruns the processed counter. -/
lemma dirLoop_found_le (wOk : List String × String → Bool) :
    ∀ (l : List SrcFile) (outs : List ((List String × String) × String))
      (p fd : Nat) (evs : List String), fd ≤ p →
      (dirLoop wOk l outs p fd evs).excalidraw_found ≤
        (dirLoop wOk l outs p fd evs).processed_files
  | [], _, p, fd, _, h => h
  | g :: l, outs, p, fd, evs, h => by
    rcases hpf : process_file g.name g.content with ⟨_ | fc, ch⟩
    · simp only [dirLoop, hpf]
      exact dirLoop_found_le wOk l outs p fd evs h
    · simp only [dirLoop, hpf]
      by_cases hw : wOk (g.relDir, g.name) = true
      · rw [if_pos hw]
        exact dirLoop_found_le wOk l _ _ _ _ (by split <;> omega)
      · rw [if_neg hw]
        exact h

/-- Same invariant for the concat loop (result components: entries,
processed, found, events). -/
lemma concatLoop_found_le :
    ∀ (l : List SrcFile) (result : List String) (p fd : Nat) (evs : List String), fd ≤ p →
      (concatLoop l result p fd evs).2.2.1 ≤ (concatLoop l result p fd evs).2.1
  | [], _, p, fd, _, h => h
  | g :: l, result, p, fd, evs, h => by
    rcases hpf : process_file g.name g.content with ⟨_ | fc, ch⟩
    · simp only [concatLoop, hpf]
      exact concatLoop_found_le l result p fd evs h
    · simp only [concatLoop, hpf]
      exact concatLoop_found_le l _ _ _ _ (by split <;> omega)

/-- Each processed file contributes exactly one progress event in the
mirror loop. -/
lemma dirLoop_events_len (wOk : List String × String → Bool) :
    ∀ (l : List SrcFile) (outs : List ((List String × String) × String))
      (p fd : Nat) (evs : List String),
      (dirLoop wOk l outs p fd evs).events.length + p =
        (dirLoop wOk l outs p fd evs).processed_files + evs.length
  | [], _, p, _, evs => by simp [dirLoop, Nat.add_comm]
  | g :: l, outs, p, fd, evs => by
    rcases hpf : process_file g.name g.content with ⟨_ | fc, ch⟩
    · simp only [dirLoop, hpf]
      exact dirLoop_events_len wOk l outs p fd evs
    · simp only [dirLoop, hpf]
      by_cases hw : wOk (g.relDir, g.name) = true
      · rw [if_pos hw]
        have ih := dirLoop_events_len wOk l (outs ++ [((g.relDir, g.name), fc)]) (p + 1)
          (fd + if ch then 1 else 0) (evs ++ ["Processing: " ++ relRender g])
        rw [List.length_append] at ih
        simp only [List.length_singleton] at ih
        omega
      · rw [if_neg hw]
        simp [Nat.add_comm]

/-- Each processed file contributes exactly one progress event in the
concat loop. -/
lemma concatLoop_events_len :
    ∀ (l : List SrcFile) (result : List String) (p fd : Nat) (evs : List String),
      (concatLoop l result p fd evs).2.2.2.length + p =
        (concatLoop l result p fd evs).2.1 + evs.length
  | [], _, p, _, evs => by simp [concatLoop, Nat.add_comm]
  | g :: l, result, p, fd, evs => by
    rcases hpf : process_file g.name g.content with ⟨_ | fc, ch⟩
    · simp only [concatLoop, hpf]
      exact concatLoop_events_len l result p fd evs
    · simp only [concatLoop, hpf]
      have ih := concatLoop_events_len l (result ++ [fileEntry g fc]) (p + 1)
        (fd + if ch then 1 else 0) (evs ++ ["Processing: " ++ relRender g])
      rw [List.length_append] at ih
      simp only [List.length_singleton] at ih
      omega

/-- The entries accumulated by the concat loop are the initial entries
followed by one block per successfully processed file, in traversal
order. -/
lemma concatLoop_entries :
    ∀ (l : List SrcFile) (result : List String) (p fd : Nat) (evs : List String),
      (concatLoop l result p fd evs).1 =
        result ++ l.filterMap (fun f =>
          ((process_file f.name f.content).1).map
            (fun c => "\n\n# File: " ++ relRender f ++ "\n\n" ++ c))
  | [], result, p, fd, evs => by simp [concatLoop]
  | g :: l, result, p, fd, evs => by
    rcases hpf : process_file g.name g.content with ⟨_ | fc, ch⟩
    · simp only [concatLoop, hpf, List.filterMap_cons, hpf, Option.map_none]
      exact concatLoop_entries l result p fd evs
    · simp only [concatLoop, hpf, List.filterMap_cons, hpf, Option.map_some]
      rw [concatLoop_entries l _ _ _ _]
      rw [List.append_assoc]
      rfl

/-! ## Claim theorems -/

/-- Claim C1, counterexample: in `"ab# Excalidraw Data"` no line, after
stripping leading whitespace, starts with `#` (the only line starts with
`a`), so the claim requires the text back unchanged with `changed =
false`; the regex of the source is not anchored to line starts and cuts
at the mid-line `#`, returning `"ab"`. -/
theorem C1_counterexample :
    (splitLines "ab# Excalidraw Data".data).all (fun l => !lineMatchesHeading l) = true ∧
    filter_excalidraw_data "ab# Excalidraw Data" ≠ "ab# Excalidraw Data" ∧
    filter_excalidraw_data "ab# Excalidraw Data" = "ab" := by
  refine ⟨by decide, by decide, by decide⟩

/-- Claim C1 (amended): `filter` removes exactly the suffix beginning at
the leftmost occurrence — at any position of the text, not only at the
start of a line — of `#` followed by optional whitespace and the literal
`Excalidraw Data`; when no such occurrence exists it returns the input
unchanged with `changed = false`. -/
theorem C1_filter_leftmost_cut (text : String) :
    ((∀ i, excalHere (text.data.drop i) = false) → filter_excalidraw_data text = text) ∧
    (∀ j : Nat, excalHere (text.data.drop j) = true →
      (∀ i, i < j → excalHere (text.data.drop i) = false) →
      filter_excalidraw_data text = String.mk (text.data.take j)) := by
  constructor
  · intro h
    show String.mk (filterAux text.data) = text
    rw [filterAux_of_noOccur _ ((noOccur_iff _).mpr h)]
  · intro j hj hlt
    show String.mk (filterAux text.data) = String.mk (text.data.take j)
    rw [filterAux_cut j _ hj hlt]

/-- Witness for C1: a text with no occurrence is unchanged, and a text
whose leftmost occurrence is at position 1 is cut there. -/
theorem C1_witness :
    filter_excalidraw_data "Hi" = "Hi" ∧
    filter_excalidraw_data "x# Excalidraw Datay" = "x" := by
  constructor
  · exact (C1_filter_leftmost_cut "Hi").1 ((noOccur_iff _).mp (by decide))
  · exact ((C1_filter_leftmost_cut "x# Excalidraw Datay").2 1 (by decide)
      (fun i hi => by
        have h0 : i = 0 := by omega
        subst h0
        decide)).trans (by decide)

/-- Claim C5, counterexample: the claim quantifies over every text `T`,
but when `T` itself contains the pattern the cut happens inside `T`:
with `T = "# Excalidraw Data\n"` the filter returns `""`, not `T`. -/
theorem C5_counterexample :
    filter_excalidraw_data ("# Excalidraw Data\n" ++ "# Excalidraw Data" ++ "x") ≠
      "# Excalidraw Data\n" := by
  decide

/-- Claim C5 (amended): for every text `T` in which the pattern `#` +
optional whitespace + `Excalidraw Data` does not occur, applying `filter`
to `T` concatenated with `"# Excalidraw Data"` and any trailing
characters returns exactly `T`, with `changed = true`. -/
theorem C5_append_heading (T anything : String)
    (h : ∀ i, excalHere (T.data.drop i) = false) :
    filter_excalidraw_data (T ++ "# Excalidraw Data" ++ anything) = T ∧
    filter_excalidraw_data (T ++ "# Excalidraw Data" ++ anything) ≠
      T ++ "# Excalidraw Data" ++ anything := by
  have hdata : (T ++ "# Excalidraw Data" ++ anything).data =
      T.data ++ "# Excalidraw Data".toList ++ anything.data := by
    rw [String.data_append, String.data_append]
    rfl
  have hfilter : filter_excalidraw_data (T ++ "# Excalidraw Data" ++ anything) = T := by
    show String.mk (filterAux (T ++ "# Excalidraw Data" ++ anything).data) = T
    rw [hdata, filterAux_append_sep T.data anything.data ((noOccur_iff _).mpr h)]
  refine ⟨hfilter, ?_⟩
  intro hEq
  have hd : T.data = (T ++ "# Excalidraw Data" ++ anything).data :=
    congrArg String.data (hfilter.symm.trans hEq)
  rw [hdata] at hd
  have hlen := congrArg List.length hd
  rw [List.length_append, List.length_append] at hlen
  have h17 : "# Excalidraw Data".toList.length = 17 := by decide
  omega

/-- Witness for C5: no occurrence in `"Hello\n"`, and the appended
heading plus trailing junk is stripped back off. -/
theorem C5_witness :
    filter_excalidraw_data ("Hello\n" ++ "# Excalidraw Data" ++ "tail") = "Hello\n" :=
  (C5_append_heading "Hello\n" "tail" ((noOccur_iff _).mp (by decide))).1

/-- Claim C6: `filter` is idempotent — re-filtering already-filtered text
never changes it further (so the second application reports `changed =
false`). -/
theorem C6_filter_idempotent (x : String) :
    filter_excalidraw_data (filter_excalidraw_data x) = filter_excalidraw_data x := by
  show String.mk (filterAux (String.mk (filterAux x.data)).data) = String.mk (filterAux x.data)
  show String.mk (filterAux (filterAux x.data)) = String.mk (filterAux x.data)
  rw [filterAux_of_noOccur _ (noOccur_filterAux x.data)]

/-- Claim C2, counterexample: a non-`.md` file that cannot be decoded as
UTF-8 (e.g. a binary image) hits the `except` branch of `process_file`
and is skipped entirely — the mirror run writes nothing for it, so no
byte-identical copy appears at the mirrored path. -/
theorem C2_counterexample :
    (process_directory [⟨[], "img.png", none⟩] (fun _ => true)).outputs = [] ∧
    (process_directory [⟨[], "img.png", none⟩] (fun _ => true)).aborted = false := by
  exact ⟨rfl, rfl⟩

/-- Claim C2 (amended): in a mirror run that completed without a write
failure, every non-`.md` file that was successfully read and decoded is
written through with its content unchanged at the structurally mirrored
path; files whose read or decode fails produce no destination entry. -/
theorem C2_mirror_copies_non_md (files : List SrcFile)
    (wOk : List String × String → Bool) (f : SrcFile) (c : String)
    (hab : (process_directory files wOk).aborted = false)
    (hmem : f ∈ files) (hmd : endswith f.name ".md" = false) (hc : f.content = some c) :
    ((f.relDir, f.name), c) ∈ (process_directory files wOk).outputs :=
  dirLoop_mem_non_md wOk files [] 0 0 [] f c hab hmem hmd hc

/-- Witness for C2: a readable `.txt` file is mirrored with its exact
content. -/
theorem C2_witness :
    (([], "b.txt"), "raw") ∈
      (process_directory [⟨[], "a.md", some "hi"⟩, ⟨[], "b.txt", some "raw"⟩]
        (fun _ => true)).outputs :=
  C2_mirror_copies_non_md [⟨[], "a.md", some "hi"⟩, ⟨[], "b.txt", some "raw"⟩]
    (fun _ => true) ⟨[], "b.txt", some "raw"⟩ "raw" (by decide)
    (by simp) (by decide) rfl

/-- Claim C3 is the spec's stated requirement, but the code violates it:
the `open(dest_file, 'w')` of `process_directory` is not inside any
`try`, so the first write failure raises out of the loop and aborts the
whole run.  Evaluated at a two-file tree whose first destination write
fails: the run aborts with nothing written, no counts, and the second
file — whose own write would have succeeded — is never visited. -/
theorem C3_write_failure_aborts :
    process_directory [⟨[], "a.md", some "hello"⟩, ⟨[], "b.md", some "world"⟩]
      (fun k => k.2 == "b.md") =
    ⟨[], 0, 0, [], true⟩ := by
  decide

/-- Claim C4, counterexample: a single unreadable file is skipped without
any `progress.update` call (the update sits inside the
`if filtered_content is not None` branch), so both strategies emit 0
increments while the up-front total is 1. -/
theorem C4_counterexample :
    (process_directory [⟨[], "bad.md", none⟩] (fun _ => true)).events.length ≠
      total_files [⟨[], "bad.md", none⟩] ∧
    (concatenate_files [⟨[], "bad.md", none⟩]).events.length ≠
      total_files [⟨[], "bad.md", none⟩] := by
  exact ⟨by decide, by decide⟩

/-- Claim C4 (amended): both traversal strategies emit exactly one
progress increment per successfully processed file — files skipped on a
read or decode error emit none — so the number of increments equals the
processed count, which can fall short of the up-front total file count. -/
theorem C4_events_match_processed (files : List SrcFile)
    (wOk : List String × String → Bool) :
    (process_directory files wOk).events.length =
      (process_directory files wOk).processed_files ∧
    (concatenate_files files).events.length =
      (concatenate_files files).processed_files := by
  constructor
  · have h := dirLoop_events_len wOk files [] 0 0 []
    simpa using h
  · have h := concatLoop_events_len files [] 0 0 []
    simpa using h

/-- Claim C7: a file that cannot be read or decoded yields `(None,
False)` from `process_file`, is excluded from the processed and found
counts, produces no destination entry, and the traversal continues with
the remaining files — in both modes the run is identical to the run on
the tree without that file. -/
theorem C7_unreadable_skipped (pre post : List SrcFile) (f : SrcFile)
    (wOk : List String × String → Bool) (hf : f.content = none) :
    process_file f.name f.content = (none, false) ∧
    process_directory (pre ++ f :: post) wOk = process_directory (pre ++ post) wOk ∧
    concatenate_files (pre ++ f :: post) = concatenate_files (pre ++ post) := by
  refine ⟨by rw [hf]; rfl, dirLoop_skip wOk f hf pre post [] 0 0 [], ?_⟩
  show (let r := concatLoop (pre ++ f :: post) [] 0 0 []
    ConcatResult.mk (String.intercalate "\n" r.1) r.2.1 r.2.2.1 r.2.2.2) = _
  rw [concatLoop_skip f hf pre post [] 0 0 []]
  rfl

/-- Witness for C7: dropping the unreadable middle file leaves both runs
unchanged. -/
theorem C7_witness :
    process_directory
        [⟨[], "a.md", some "x"⟩, ⟨[], "bad.md", none⟩, ⟨[], "c.txt", some "y"⟩]
        (fun _ => true) =
      process_directory [⟨[], "a.md", some "x"⟩, ⟨[], "c.txt", some "y"⟩]
        (fun _ => true) :=
  (C7_unreadable_skipped [⟨[], "a.md", some "x"⟩] [⟨[], "c.txt", some "y"⟩]
    ⟨[], "bad.md", none⟩ (fun _ => true) rfl).2.1

/-- Claim C8: the concat payload is exactly the `\n\n# File: <relpath>\n\n`
separator followed by the (possibly filtered) content, one block per
successfully processed file in traversal order, joined with a single
newline. -/
theorem C8_concat_payload (files : List SrcFile) :
    (concatenate_files files).text =
      String.intercalate "\n" (files.filterMap (fun f =>
        ((process_file f.name f.content).1).map
          (fun c => "\n\n# File: " ++ relRender f ++ "\n\n" ++ c))) := by
  show String.intercalate "\n" (concatLoop files [] 0 0 []).1 = _
  rw [concatLoop_entries files [] 0 0 []]
  rw [List.nil_append]

/-- Claim C9: in every run of either mode the counts satisfy
`0 ≤ excalidraw_found ≤ processed_files` (counts are naturals, so the
lower bound is inherent). -/
theorem C9_found_le_processed (files : List SrcFile)
    (wOk : List String × String → Bool) :
    (process_directory files wOk).excalidraw_found ≤
      (process_directory files wOk).processed_files ∧
    (concatenate_files files).excalidraw_found ≤
      (concatenate_files files).processed_files :=
  ⟨dirLoop_found_le wOk files [] 0 0 [] (Nat.le_refl 0),
   concatLoop_found_le files [] 0 0 [] (Nat.le_refl 0)⟩

/-- Claim C10: `process_note_file` returns `True` exactly when filtering
changes the content; when the filtered content equals the original, or
the path does not exist, the file state is left unmodified and it returns
`False`; when it returns `True` the file holds the filtered content. -/
theorem C10_rewrite_iff_changed (s : Option String) :
    ((process_note_file s).2 = true ↔
      ∃ c, s = some c ∧ filter_excalidraw_data c ≠ c) ∧
    ((process_note_file s).2 = false → (process_note_file s).1 = s) ∧
    (∀ c, s = some c → (process_note_file s).1 = some (filter_excalidraw_data c)) := by
  match s with
  | none =>
    refine ⟨⟨fun h => absurd h (by decide), ?_⟩, fun _ => rfl, fun c hc => by cases hc⟩
    rintro ⟨c, hc, -⟩
    cases hc
  | some c =>
    by_cases hne : filter_excalidraw_data c = c
    · have hred : process_note_file (some c) = (some c, false) := by
        simp [process_note_file, hne]
      rw [hred]
      refine ⟨⟨fun h => Bool.noConfusion h, ?_⟩, fun _ => rfl, ?_⟩
      · rintro ⟨c', hc', hne'⟩
        rw [Option.some_inj] at hc'
        subst hc'
        exact absurd hne hne'
      · intro c' hc'
        rw [Option.some_inj] at hc'
        subst hc'
        rw [hne]
    · have hred : process_note_file (some c) =
          (some (filter_excalidraw_data c), true) := by
        simp [process_note_file, hne]
      rw [hred]
      refine ⟨⟨fun _ => ⟨c, rfl, hne⟩, fun _ => rfl⟩,
        fun h => Bool.noConfusion h, ?_⟩
      intro c' hc'
      rw [Option.some_inj] at hc'
      subst hc'
      rfl

/-- Witness for C10: a note containing the heading reports `True`; a
nonexistent path is left untouched. -/
theorem C10_witness :
    (process_note_file (some "a# Excalidraw Datab")).2 = true ∧
    (process_note_file none).1 = none := by
  constructor
  · exact (C10_rewrite_iff_changed (some "a# Excalidraw Datab")).1.mpr
      ⟨"a# Excalidraw Datab", rfl, by decide⟩
  · exact (C10_rewrite_iff_changed none).2.1 (by decide)
